import Mathlib

/-!
Shallow embedding of the source-map analysis core of the `svis-tool`
repository (Rust), together with theorems settling the frozen claims about
it.

Conventions used throughout:

* Rust `u32` values are modelled as `Nat`; the places where the source
  performs an `as u32` / `as i32` cast or wrapping two's-complement
  arithmetic are modelled explicitly with `u32ofI32` / `i32ofU32` below
  (reduction modulo 2^32).
* A Rust panic (an `unwrap` on `None`, an out-of-bounds index, or
  `unreachable!()`) is modelled by returning `none` in an `Option`-valued
  function; a recoverable `Err` is an `Except.error`.
* Byte lengths of strings use `String.utf8ByteSize`, matching Rust's
  `str::len`.
* The file-system effects of `discover_files` / `analyze_path` are
  abstracted into explicit arguments (the metadata answer, the directory
  listing, the per-file analysis oracle); the control flow around them is
  embedded faithfully.
-/

namespace SvisTool

/-- Interpret an `i32` value (arbitrary-precision model) as the `u32` with
the same 32-bit two's-complement bit pattern, i.e. Rust's `as u32` cast. -/
def u32ofI32 (v : Int) : Nat := (v % 4294967296).toNat

/-- Interpret a `u32` bit pattern as an `i32` value, i.e. Rust's `as i32`
cast. -/
def i32ofU32 (n : Nat) : Int :=
  if n < 2147483648 then (n : Int) else (n : Int) - 4294967296

/-- Two's-complement wrap of an integer into the `i32` range (the semantics
of wrapping `i32` arithmetic). -/
def wrap32 (v : Int) : Int := i32ofU32 (u32ofI32 v)

/-! ## VLQ decoder (`src/core/src/vlq.rs` and `src/src/core/vlq.rs`)

The two copies of `vlq_decode` in the repository differ only in how they
represent the group currently being accumulated (an index into the group
vector with an "ended" flag, versus a separate current-group buffer); both
are embedded by `vlqStep` below, which carries the finished groups and the
open group.  `ALPHABET.find(byte).unwrap()` is a panic on a character
outside the alphabet, hence the `Option` layer. -/

def ALPHABET : String :=
  "ABCDEFGHIJKLMNOPQRSTUVWXYZabcdefghijklmnopqrstuvwxyz0123456789+/"

/-- `ALPHABET.find(c)`: index of `c` in the 64-character alphabet (all
characters are ASCII, so byte index and character index agree). -/
def alphaFind (c : Char) : Option Nat := ALPHABET.data.findIdx? (fun x => x = c)

inductive VlqError where
  | unterminated : VlqError
  | wrongFieldCount (count : Nat) (input : String) : VlqError
deriving DecidableEq

/-- One step of the group-partitioning loop: push the 6-bit value into the
current group; if its continuation bit (0x20) is clear, the group is
complete. -/
def vlqStep (st : List (List Nat) × List Nat) (raw : Nat) : List (List Nat) × List Nat :=
  let cur := st.2 ++ [raw]
  if raw &&& 32 == 0 then (st.1 ++ [cur], []) else (st.1, cur)

/-- Decode one VLQ group, mirroring the reversed-iteration loop of the
source: bytes at index ≥ 1 contribute their low 5 bits (most significant
processed first), the byte at index 0 contributes its bit 0 as the sign and
bits 1–4 as the low magnitude bits.  The `% 4294967296` keeps the `i32`
shift semantics (bits shifted out are discarded). -/
def decodeGroup (g : List Nat) : Int :=
  match g with
  | [] => 0
  | b0 :: rest =>
    let v1 : Nat := rest.foldr (fun b acc => ((acc * 32) % 4294967296) ||| (b &&& 31)) 0
    let value : Nat := ((v1 * 16) % 4294967296) ||| ((b0 / 2) &&& 15)
    if b0 % 2 == 1 then wrap32 (-(i32ofU32 value)) else i32ofU32 value

/-- `vlq_decode` from the source.  `none` models the `unwrap` panic on an
out-of-alphabet character; `Except.error` models the two `anyhow!` errors. -/
def vlq_decode (s : String) : Option (Except VlqError (List Int)) :=
  if s.isEmpty then some (.ok [0, 0, 0, 0])
  else
    match s.data.mapM alphaFind with
    | none => none
    | some bytes =>
      let st := bytes.foldl vlqStep ([], [])
      if !st.2.isEmpty then some (.error .unterminated)
      else if st.1.length ≠ 4 ∧ st.1.length ≠ 5 then
        some (.error (.wrongFieldCount st.1.length s))
      else some (.ok ((st.1.take 4).map decodeGroup))

/-- Stated from the claim's words, independently of the decoder's loop:
partition a byte list into continuation-bit-terminated groups, returning
the complete groups together with the trailing bytes of a final group that
was never closed (empty when the last group is complete).  The first
argument is the group currently being accumulated. -/
def splitFrom : List Nat → List Nat → List (List Nat) × List Nat
  | cur, [] => ([], cur)
  | cur, b :: bs =>
    if b &&& 32 == 0 then
      let r := splitFrom [] bs
      ((cur ++ [b]) :: r.1, r.2)
    else splitFrom (cur ++ [b]) bs

/-! ## Mapping table reconstruction (`SourceMapping::from_raw`,
`src/core/src/parser.rs` and `src/src/core/parser.rs`; the two copies
differ only in that the former also computes `file_name`) -/

/-- Rust's `str::split(sep)` for a one-character separator, on the
character list: always at least one (possibly empty) piece, one extra piece
per separator occurrence.  (Lean's own `String.splitOn` has the same
semantics but is defined by well-founded recursion, which the kernel cannot
evaluate; this structural version is used instead.) -/
def splitOnChar (sep : Char) : List Char → List (List Char)
  | [] => [[]]
  | c :: rest =>
    let r := splitOnChar sep rest
    if c = sep then [] :: r
    else (c :: r.headD []) :: r.tail

def strSplit (sep : Char) (s : String) : List String :=
  (splitOnChar sep s.data).map String.mk

structure Mapping where
  gen_line : Nat
  gen_column : Nat
  src_file : Nat
  src_line : Nat
  src_column : Nat
deriving DecidableEq

def EMPTY_MAPPING : Mapping :=
  { gen_line := 0, gen_column := 0, src_file := 0, src_line := 0, src_column := 0 }

structure RawSourceMapping where
  file : String
  source_root : Option String
  sources : List String
  names : List String
  mappings : String
deriving DecidableEq

structure SourceMapping where
  file : String
  source_root : Option String
  sources : List String
  names : List String
  mappings : List Mapping
  source_file_len : Nat
  source_map_len : Nat
  file_name : String
deriving DecidableEq

/-- The inner loop of `from_raw` over the comma-separated segments of one
generated-line chunk.  `line_prev_column` is the running generated-column
base (an `i32` in the source), reset to 0 by the caller at every chunk;
the `src_*` fields chain from the last mapping appended so far
(`mappings.last().unwrap_or(&EMPTY_MAPPING)`).  Each `as u32` / `as i32`
cast of the source appears as `u32ofI32` / `i32ofU32`. -/
def processLine (gen_line : Nat) :
    List String → Int → List Mapping → Option (Except VlqError (List Mapping))
  | [], _, acc => some (.ok acc)
  | seg :: rest, line_prev_column, acc =>
    match vlq_decode seg with
    | none => none
    | some (.error e) => some (.error e)
    | some (.ok d) =>
      let prev := acc.getLastD EMPTY_MAPPING
      let gen_column := u32ofI32 (d.getD 0 0 + line_prev_column)
      let m : Mapping :=
        { gen_line := gen_line
          gen_column := gen_column
          src_file := u32ofI32 (d.getD 1 0 + i32ofU32 prev.src_file)
          src_line := u32ofI32 (d.getD 2 0 + i32ofU32 prev.src_line)
          src_column := u32ofI32 (d.getD 3 0 + i32ofU32 prev.src_column) }
      processLine gen_line rest (i32ofU32 gen_column) (acc ++ [m])

/-- The outer loop of `from_raw` over the `';'`-separated line chunks; the
`Nat` argument is the running `enumerate()` index (the generated line);
empty chunks are skipped. -/
def processChunks : Nat → List String → List Mapping → Option (Except VlqError (List Mapping))
  | _, [], acc => some (.ok acc)
  | gen_line, chunk :: rest, acc =>
    if chunk = "" then processChunks (gen_line + 1) rest acc
    else
      match processLine gen_line (strSplit ',' chunk) 0 acc with
      | none => none
      | some (.error e) => some (.error e)
      | some (.ok acc2) => processChunks (gen_line + 1) rest acc2

/-- `file_name` computation of `from_raw`: the part of `file` after the
last `'/'`, or the whole string when there is none (`rfind('/')` followed
by `get((pos + 1)..)`). -/
def fileNameFrom (file : String) : String :=
  match file.data.reverse.findIdx? (fun c => c = '/') with
  | none => file
  | some ridx => String.mk ((file.data.reverse.take ridx).reverse)

def SourceMapping.from_raw (raw : RawSourceMapping) :
    Option (Except VlqError SourceMapping) :=
  match processChunks 0 (strSplit ';' raw.mappings) [] with
  | none => none
  | some (.error e) => some (.error e)
  | some (.ok mappings) =>
    some (.ok { file := raw.file, source_root := raw.source_root,
                sources := raw.sources, names := raw.names, mappings := mappings,
                source_file_len := 0, source_map_len := 0,
                file_name := fileNameFrom raw.file })

/-! ### C2: the reconstruction claim -/

/-- Count of the claim's "non-empty comma-separated segments" of the
non-empty `';'`-delimited line chunks, stated from the claim's words. -/
def nonEmptySegmentCount (mappings : String) : Nat :=
  (((strSplit ';' mappings).filter (fun c => c ≠ "")).map
    (fun c => ((strSplit ',' c).filter (fun s => s ≠ "")).length)).sum

def rawComma : RawSourceMapping :=
  { file := "f", source_root := none, sources := [], names := [], mappings := "," }

/-- State of the claim's running delta sums: the current generated line (if
any segment has been decoded yet), the sum of `gen_column` deltas of the
segments on the current line, and the sums of the `src_file` / `src_line` /
`src_column` deltas over all segments since the beginning of the table. -/
structure SpecSt where
  curLine : Option Nat
  colSum : Int
  fileSum : Int
  lineSum : Int
  colSrcSum : Int
deriving DecidableEq

/-- The decoded deltas of a segment (meaningful under the hypothesis that
the segment decodes successfully). -/
def decOf (s : String) : List Int :=
  match vlq_decode s with
  | some (.ok d) => d
  | _ => []

/-- One segment according to the claim's words: the `gen_column` delta
accumulates relative to the previous segment on the same line only
(resetting at a line change), while the `src_*` deltas accumulate over the
whole table; the mapping's `u32` fields are the 32-bit images of the exact
integer sums. -/
def specStep (st : SpecSt) (p : Nat × String) : Mapping × SpecSt :=
  let d := decOf p.2
  let colSum := if st.curLine = some p.1 then st.colSum + d.getD 0 0 else d.getD 0 0
  let fileSum := st.fileSum + d.getD 1 0
  let lineSum := st.lineSum + d.getD 2 0
  let colSrcSum := st.colSrcSum + d.getD 3 0
  ({ gen_line := p.1, gen_column := u32ofI32 colSum, src_file := u32ofI32 fileSum,
     src_line := u32ofI32 lineSum, src_column := u32ofI32 colSrcSum },
   { curLine := some p.1, colSum := colSum, fileSum := fileSum,
     lineSum := lineSum, colSrcSum := colSrcSum })

def specRun (st : SpecSt) : List (Nat × String) → List Mapping × SpecSt
  | [] => ([], st)
  | p :: rest =>
    let r := specStep st p
    let r2 := specRun r.2 rest
    (r.1 :: r2.1, r2.2)

def initialSpecSt : SpecSt :=
  { curLine := none, colSum := 0, fileSum := 0, lineSum := 0, colSrcSum := 0 }

/-- The `(gen_line, segment)` pairs `from_raw` decodes, in encounter order:
one per comma-separated segment of each non-empty `';'`-delimited chunk,
tagged with the chunk's 0-based index.  The `Nat` argument is the index of
the first chunk. -/
def segsFrom (gen_line : Nat) : List String → List (Nat × String)
  | [] => []
  | chunk :: rest =>
    (if chunk = "" then [] else (strSplit ',' chunk).map (fun s => (gen_line, s))) ++
      segsFrom (gen_line + 1) rest

def allSegs (mappings : String) : List (Nat × String) :=
  segsFrom 0 (strSplit ';' mappings)

/-- The last appended mapping carries the 32-bit images of the running
`src_*` delta sums. -/
def stMatches (st : SpecSt) (prev : Mapping) : Prop :=
  prev.src_file = u32ofI32 st.fileSum ∧ prev.src_line = u32ofI32 st.lineSum ∧
    prev.src_column = u32ofI32 st.colSrcSum

/-! ## Size attribution analyzer (`calculate_size_by_file`,
`src/src/core/analyzer.rs`) -/

structure SourceMappingFileInfo where
  bytes : Nat
  file : Nat
deriving DecidableEq

structure SourceMappingInfo where
  source_mapping : SourceMapping
  sum_bytes : Nat
  info_by_file : List SourceMappingFileInfo
deriving DecidableEq

inductive AnalyzerError where
  | subtractionOverflow (file : String) (end_column gen_column : Nat) : AnalyzerError
deriving DecidableEq

/-- Rust's `str::lines()`: split inclusively at `'\n'`, then strip the
trailing `'\n'` from each piece and, only from a piece that had one, also a
trailing `'\r'` (a `"\r\n"` terminator).  A bare trailing `'\r'` on the
final, unterminated line is kept, and a string ending in `'\n'` produces no
extra empty line.  In the model below, every piece of `splitOnChar '\n'`
except the last was `'\n'`-terminated, and a final empty piece means the
string ended in `'\n'`. -/
def rustLines (s : String) : List String :=
  let parts := splitOnChar '\n' s.data
  let terminated := parts.dropLast.map
    (fun l => if l.getLast? = some '\r' then l.dropLast else l)
  let all :=
    if parts.getLast? = some [] then terminated
    else terminated ++ [parts.getLastD []]
  all.map String.mk

/-- Byte length of a line, Rust's `str::len`. -/
def lineLen (l : String) : Nat := l.utf8ByteSize

/-- The mapping's end column as the source computes it: the next mapping's
`gen_column` when it exists on the same generated line, otherwise the byte
length of the current generated line under the source's `line.len() as u32`
truncating cast.  (Used both by the embedded loop below, after its bounds
check, and by the claim-side `contribs`.) -/
def endColOf (lines : List String) (m : Mapping) (next? : Option Mapping) : Nat :=
  match next? with
  | some next =>
    if next.gen_line ≠ m.gen_line then lineLen (lines.getD m.gen_line "") % 4294967296
    else next.gen_column
  | none => lineLen (lines.getD m.gen_line "") % 4294967296

/-- The analyzer's main loop.  Per iteration, in source order:
`info_by_file.get_mut(src_file).unwrap()` (panic when out of range), the
preamble test (`index == 0 || gen_line changed`), the `file_lines[gen_line]`
index (panic when out of range), the end column, and the `checked_sub`
underflow check (a returned `Err`).  The `u32` accumulators `bytes`,
`info.bytes` and `sum_bytes` are modelled as unbounded `Nat`: the model
diverges from the source only when attributed byte counts reach 2^32
(wrapping in release, an overflow panic in debug). -/
def analyzeLoop (lines : List String) (fname : String) :
    List Mapping → Nat → Mapping → List SourceMappingFileInfo → Nat →
    Option (Except AnalyzerError (List SourceMappingFileInfo × Nat))
  | [], _, _, info, sum => some (.ok (info, sum))
  | m :: rest, idx, prev, info, sum =>
    if hsf : m.src_file < info.length then
      let preamble : Nat := if idx = 0 ∨ m.gen_line ≠ prev.gen_line then m.gen_column else 0
      if m.gen_line < lines.length then
        let endCol := endColOf lines m rest.head?
        if endCol < m.gen_column then
          some (.error (.subtractionOverflow fname endCol m.gen_column))
        else
          let bytes := preamble + (endCol - m.gen_column)
          let old := info.get ⟨m.src_file, hsf⟩
          analyzeLoop lines fname rest (idx + 1) m
            (info.set m.src_file { old with bytes := old.bytes + bytes }) (sum + bytes)
      else none
    else none

def calculate_size_by_file (file_contents : String) (source_mapping : SourceMapping) :
    Option (Except AnalyzerError SourceMappingInfo) :=
  let file_lines := rustLines file_contents
  let info0 := (List.range source_mapping.sources.length).map
    (fun file => { bytes := 0, file := file : SourceMappingFileInfo })
  match analyzeLoop file_lines source_mapping.file source_mapping.mappings 0
      EMPTY_MAPPING info0 0 with
  | none => none
  | some (.error e) => some (.error e)
  | some (.ok r) =>
    some (.ok { source_mapping := source_mapping, sum_bytes := r.2, info_by_file := r.1 })

/-! ### Claim-side definitions for C1/C6/C9 -/

/-- Every mapping's `src_file` indexes `sources` and its `gen_line` indexes
the generated file's lines. -/
def allInBounds (lines : List String) (nsources : Nat) (ms : List Mapping) : Bool :=
  ms.all (fun m => decide (m.src_file < nsources) && decide (m.gen_line < lines.length))

/-- Some mapping's computed end column strictly precedes its own
`gen_column`. -/
def hasUnderflow (lines : List String) : List Mapping → Bool
  | [] => false
  | m :: rest => decide (endColOf lines m rest.head? < m.gen_column) || hasUnderflow lines rest

def smNine : SourceMapping :=
  { file := "f", source_root := none, sources := ["s"], names := [],
    mappings := [{ gen_line := 0, gen_column := 5, src_file := 0, src_line := 0, src_column := 0 },
                 { gen_line := 3, gen_column := 0, src_file := 0, src_line := 0, src_column := 0 }],
    source_file_len := 0, source_map_len := 0, file_name := "f" }

/-! ## File discovery and the batch runner (`src/core/src/lib.rs`)

`discover_files` performs file-system calls; the embedding takes the
answer of `std::fs::metadata` (an error, a plain file, or a directory with
its `read_dir` listing) as an explicit argument and embeds everything the
source does with it.  `analyze_path` likewise takes the discovery outcome
and the per-file `handle_file` pipeline as an oracle, and returns the exact
trace of callback invocations alongside its own `Result`. -/

inductive FsMeta where
  | file : FsMeta
  | dir (entries : List String) : FsMeta

/-- Rust's `Path::extension()`: the part of the last path segment after its
last `'.'`, none when the segment has no `'.'` or only a leading one. -/
def rustExtension (p : String) : Option String :=
  let cs := ((splitOnChar '/' p.data).getLastD []).reverse
  let revAfter := cs.takeWhile (fun c => c ≠ '.')
  if revAfter.length + 1 ≥ cs.length then none
  else some (String.mk revAfter.reverse)

/-- `discover_files`, with the metadata answer explicit.  For a directory,
every entry's `extension().unwrap()` panics (`none`) when the entry has no
extension; entries whose extension is exactly `"js"` are collected and the
result is sorted (Rust `Vec::sort`, lexicographic byte order — realized
with a stable merge sort, which agrees with it on the output's contents
and order). -/
def discover_files (path : String) (meta : Except String FsMeta) :
    Option (Except String (List String)) :=
  match meta with
  | .error e => some (.error e)
  | .ok .file => some (.ok [path])
  | .ok (.dir entries) =>
    match entries.mapM (fun name =>
        (rustExtension (path ++ "/" ++ name)).map
          (fun ext => if ext = "js" then [path ++ "/" ++ name] else [])) with
    | none => none
    | some picked => some (.ok ((picked.flatten).mergeSort (fun a b => a ≤ b)))

/-- The claim-side selection: the immediate entries whose extension is
exactly `"js"`, in listing order. -/
def jsFiles (path : String) (entries : List String) : List String :=
  (entries.map (fun n => path ++ "/" ++ n)).filter
    (fun p => rustExtension p = some "js")

/-- `analyze_path`, with the discovery outcome and the per-file pipeline
(`handle_file`, whose file I/O is abstracted as an oracle) explicit.  The
first component is the exact ordered trace of `on_file_result` callback
invocations; the second is `analyze_path`'s own return value. -/
def analyze_path (discovered : Except String (List String))
    (handle_file : String → Except String SourceMappingInfo) :
    List (String × Except String SourceMappingInfo) × Except String Unit :=
  match discovered with
  | .error e => ([], .error e)
  | .ok files => (files.foldl (fun acc f => acc ++ [(f, handle_file f)]) [], .ok ())

/-! ## `sources_root` / `resolve_relative_path`
(`src/core/src/parser.rs`) -/

/-- The reverse scan of `resolve_relative_path`: iterate the characters of
`relative_to` from the end, counting `'/'`; when the count reaches
`target`, return the prefix before that separator; falling off the end is
the `unreachable!()` panic (`none`).  (`cs` is the full character list,
kept for the prefix computation; character positions stand in for the
source's byte positions.) -/
def resolveLoop (cs : List Char) (target : Nat) :
    List Char → Nat → Nat → Option String
  | [], _, _ => none
  | c :: rest, index, skipped =>
    let skipped2 := if c = '/' then skipped + 1 else skipped
    if skipped2 = target then some (String.mk (cs.take (cs.length - index - 1)))
    else resolveLoop cs target rest (index + 1) skipped2

/-- The predicate of the source's `position(|c| c != '.' && c != '/')`. -/
def notDotSlash (c : Char) : Bool := c ≠ '.' && c ≠ '/'

/-- `resolve_relative_path`: `none` models the panic of
`position(..).unwrap()` (no character of `relative_path` outside `./`) and
of the final `unreachable!()`. -/
def resolve_relative_path (relative_path relative_to : String) : Option String :=
  match relative_path.data.findIdx? notDotSlash with
  | none => none
  | some pos =>
    let relative_jumps := pos / 3
    resolveLoop relative_to.data (relative_jumps + 1) relative_to.data.reverse 0 0

/-- `SourceMapping::sources_root`: an explicit non-empty `sourceRoot` is
returned verbatim; otherwise `sources.first().unwrap()` (`none` on an empty
`sources`) feeds `resolve_relative_path`. -/
def sources_root (sm : SourceMapping) : Option String :=
  match sm.source_root with
  | some p =>
    if ¬ p.isEmpty then some p
    else
      match sm.sources.head? with
      | none => none
      | some s0 => resolve_relative_path s0 sm.file
  | none =>
    match sm.sources.head? with
    | none => none
    | some s0 => resolve_relative_path s0 sm.file

/-- Number of leading `"../"` components of a path, as the claim counts
them. -/
def leadingParentRefs : List Char → Nat
  | c1 :: c2 :: c3 :: rest =>
    if c1 = '.' ∧ c2 = '.' ∧ c3 = '/' then leadingParentRefs rest + 1 else 0
  | _ => 0

def smTen : SourceMapping :=
  { file := "y", source_root := none, sources := ["../x"], names := [],
    mappings := [], source_file_len := 0, source_map_len := 0, file_name := "y" }

/-! ## Theorems -/

theorem u32ofI32_lt (v : Int) : u32ofI32 v < 4294967296 := by
  unfold u32ofI32; omega

/-- Adding a delta to a stored `u32` field after casting it back to `i32`
gives the same `u32` as adding the delta to the exact integer sum: the
cast round trip only changes the value by a multiple of 2^32. -/
theorem u32ofI32_add_cast (a b : Int) :
    u32ofI32 (a + i32ofU32 (u32ofI32 b)) = u32ofI32 (a + b) := by
  unfold u32ofI32 i32ofU32
  split <;> omega

/-- C3: the four known decoding vectors. -/
theorem vlq_decode_known_vectors :
    vlq_decode "" = some (.ok [0, 0, 0, 0]) ∧
    vlq_decode "AAAA" = some (.ok [0, 0, 0, 0]) ∧
    vlq_decode "EAC3B" = some (.ok [2, 0, 1, -27]) ∧
    vlq_decode "gBAAa" = some (.ok [16, 0, 0, 13]) :=
  ⟨rfl, rfl, rfl, rfl⟩

/-- C5: evaluated at an input containing `!` (outside the 64-character
alphabet), `vlq_decode` panics (the `ALPHABET.find(byte).unwrap()` of the
source), modelled by `none` — it does not return a descriptive error. -/
theorem vlq_decode_bad_char_panics : vlq_decode "!AAA" = none := rfl

/-- The decoder's partition loop computes exactly `splitFrom`. -/
theorem foldl_vlqStep_eq_splitFrom (bytes : List Nat) :
    ∀ (acc : List (List Nat)) (cur : List Nat),
      bytes.foldl vlqStep (acc, cur) =
        (acc ++ (splitFrom cur bytes).1, (splitFrom cur bytes).2) := by
  induction bytes with
  | nil => intro acc cur; simp [splitFrom]
  | cons b bs ih =>
    intro acc cur
    simp only [List.foldl_cons, vlqStep, splitFrom]
    cases hb : (b &&& 32 == 0) <;> simp [hb, ih]

theorem mapM_alphaFind_total (l : List Char) (h : ∀ c ∈ l, (alphaFind c).isSome) :
    ∃ v, l.mapM alphaFind = some v := by
  induction l with
  | nil => exact ⟨[], rfl⟩
  | cons c cs ih =>
    obtain ⟨b, hb⟩ := Option.isSome_iff_exists.mp (h c (by simp))
    obtain ⟨v, hv⟩ := ih (fun x hx => h x (by simp [hx]))
    exact ⟨b :: v, by rw [List.mapM_cons, hb, hv]; rfl⟩

/-- C4: on a non-empty in-alphabet input, the decoder's outcome is decided
by the continuation-bit partition of the 6-bit values: a final group left
open fails with the "unterminated sequence" error, a complete partition
into a group count other than 4 or 5 fails with the "wrong field count"
error, and a complete partition into 4 or 5 groups succeeds, decoding only
the first 4 groups (a fifth group is discarded). -/
theorem vlq_decode_group_classification (s : String)
    (hne : ¬ s.isEmpty) (halpha : ∀ c ∈ s.data, (alphaFind c).isSome) :
    ∃ bytes, s.data.mapM alphaFind = some bytes ∧
      ((splitFrom [] bytes).2 ≠ [] →
        vlq_decode s = some (.error .unterminated)) ∧
      ((splitFrom [] bytes).2 = [] →
        ((splitFrom [] bytes).1.length = 4 ∨ (splitFrom [] bytes).1.length = 5) →
        vlq_decode s = some (.ok (((splitFrom [] bytes).1.take 4).map decodeGroup))) ∧
      ((splitFrom [] bytes).2 = [] →
        (splitFrom [] bytes).1.length ≠ 4 → (splitFrom [] bytes).1.length ≠ 5 →
        vlq_decode s = some (.error (.wrongFieldCount (splitFrom [] bytes).1.length s))) := by
  obtain ⟨bytes, hbytes⟩ := mapM_alphaFind_total s.data halpha
  refine ⟨bytes, hbytes, ?_, ?_, ?_⟩ <;>
    simp only [vlq_decode, hne, if_false, hbytes,
      foldl_vlqStep_eq_splitFrom bytes [] [], List.nil_append]
  · intro h2
    simp [Bool.not_eq_true', List.isEmpty_iff, h2]
  · intro h2 hlen
    have : ¬ ((splitFrom [] bytes).1.length ≠ 4 ∧ (splitFrom [] bytes).1.length ≠ 5) := by
      rcases hlen with h | h <;> simp [h]
    simp [h2, this]
  · intro h2 h4 h5
    simp [h2, h4, h5]

/-- C4 witness: `"AAAAA"` partitions into five complete groups and decodes
successfully with the fifth group discarded. -/
theorem vlq_decode_group_classification_witness :
    ∃ bytes, "AAAAA".data.mapM alphaFind = some bytes ∧
      ((splitFrom [] bytes).2 ≠ [] →
        vlq_decode "AAAAA" = some (.error .unterminated)) ∧
      ((splitFrom [] bytes).2 = [] →
        ((splitFrom [] bytes).1.length = 4 ∨ (splitFrom [] bytes).1.length = 5) →
        vlq_decode "AAAAA" = some (.ok (((splitFrom [] bytes).1.take 4).map decodeGroup))) ∧
      ((splitFrom [] bytes).2 = [] →
        (splitFrom [] bytes).1.length ≠ 4 → (splitFrom [] bytes).1.length ≠ 5 →
        vlq_decode "AAAAA" = some (.error (.wrongFieldCount (splitFrom [] bytes).1.length "AAAAA"))) :=
  vlq_decode_group_classification "AAAAA" (by decide) (by decide)

/-- C2 counterexample: for the mappings string `","` (a single non-empty
line chunk consisting of two empty comma-separated segments, both of which
decode successfully to `[0,0,0,0]`), `from_raw` appends two mappings,
although the string has no non-empty comma-separated segment at all. -/
theorem from_raw_counts_empty_segments :
    nonEmptySegmentCount "," = 0 ∧
    SourceMapping.from_raw rawComma =
      some (.ok { file := "f", source_root := none, sources := [], names := [],
                  mappings := [EMPTY_MAPPING, EMPTY_MAPPING],
                  source_file_len := 0, source_map_len := 0, file_name := "f" }) ∧
    ¬ (2 = nonEmptySegmentCount ",") :=
  ⟨rfl, rfl, by decide⟩

theorem specRun_append (st : SpecSt) (xs ys : List (Nat × String)) :
    specRun st (xs ++ ys) =
      ((specRun st xs).1 ++ (specRun (specRun st xs).2 ys).1,
        (specRun (specRun st xs).2 ys).2) := by
  induction xs generalizing st with
  | nil => simp [specRun]
  | cons p rest ih => simp [specRun, ih]

theorem specRun_length (st : SpecSt) (l : List (Nat × String)) :
    (specRun st l).1.length = l.length := by
  induction l generalizing st with
  | nil => rfl
  | cons p rest ih => simp [specRun, ih]

theorem processLine_cons_ok (gl : Nat) (seg : String) (rest : List String)
    (line_prev : Int) (acc : List Mapping) (d : List Int)
    (hd : vlq_decode seg = some (.ok d)) (m : Mapping)
    (hmdef : m = { gen_line := gl
                   gen_column := u32ofI32 (d.getD 0 0 + line_prev)
                   src_file := u32ofI32 (d.getD 1 0 + i32ofU32 (acc.getLastD EMPTY_MAPPING).src_file)
                   src_line := u32ofI32 (d.getD 2 0 + i32ofU32 (acc.getLastD EMPTY_MAPPING).src_line)
                   src_column := u32ofI32 (d.getD 3 0 + i32ofU32 (acc.getLastD EMPTY_MAPPING).src_column) }) :
    processLine gl (seg :: rest) line_prev acc =
      processLine gl rest (i32ofU32 m.gen_column) (acc ++ [m]) := by
  subst hmdef
  simp only [processLine, hd]

theorem processLine_spec (gl : Nat) (segs : List String) :
    ∀ (st : SpecSt) (acc : List Mapping) (line_prev : Int),
      (∀ s ∈ segs, ∃ d, vlq_decode s = some (.ok d)) →
      stMatches st (acc.getLastD EMPTY_MAPPING) →
      ((st.curLine = some gl ∧ line_prev = i32ofU32 (u32ofI32 st.colSum)) ∨
        (st.curLine ≠ some gl ∧ line_prev = 0)) →
      processLine gl segs line_prev acc =
        some (.ok (acc ++ (specRun st (segs.map (fun s => (gl, s)))).1)) ∧
      stMatches (specRun st (segs.map (fun s => (gl, s)))).2
        ((acc ++ (specRun st (segs.map (fun s => (gl, s)))).1).getLastD EMPTY_MAPPING) ∧
      ((specRun st (segs.map (fun s => (gl, s)))).2.curLine = st.curLine ∨
        (specRun st (segs.map (fun s => (gl, s)))).2.curLine = some gl) := by
  induction segs with
  | nil =>
    intro st acc line_prev _ hmatch _
    simpa [processLine, specRun] using hmatch
  | cons seg rest ih =>
    intro st acc line_prev hdec hmatch hline
    obtain ⟨d, hd⟩ := hdec seg (by simp)
    obtain ⟨hf, hl, hc⟩ := hmatch
    -- the mapping appended by the source loop equals the one of `specStep`
    have hcol : u32ofI32 (d.getD 0 0 + line_prev) =
        u32ofI32 (if st.curLine = some gl then st.colSum + d.getD 0 0 else d.getD 0 0) := by
      rcases hline with ⟨hcur, hprev⟩ | ⟨hcur, hprev⟩
      · rw [if_pos hcur, hprev, u32ofI32_add_cast, Int.add_comm]
      · rw [if_neg hcur, hprev, Int.add_zero]
    have hm : (specStep st (gl, seg)).1 =
        ({ gen_line := gl
           gen_column := u32ofI32 (d.getD 0 0 + line_prev)
           src_file := u32ofI32 (d.getD 1 0 + i32ofU32 (acc.getLastD EMPTY_MAPPING).src_file)
           src_line := u32ofI32 (d.getD 2 0 + i32ofU32 (acc.getLastD EMPTY_MAPPING).src_line)
           src_column := u32ofI32 (d.getD 3 0 + i32ofU32 (acc.getLastD EMPTY_MAPPING).src_column)
         } : Mapping) := by
      simp only [specStep, decOf, hd, hcol, hf, hl, hc, u32ofI32_add_cast]
      rw [Int.add_comm st.fileSum (d.getD 1 0), Int.add_comm st.lineSum (d.getD 2 0),
        Int.add_comm st.colSrcSum (d.getD 3 0)]
    have hstep := processLine_cons_ok gl seg rest line_prev acc d hd
      ((specStep st (gl, seg)).1) hm
    have hst2 : stMatches (specStep st (gl, seg)).2
        (((acc ++ [(specStep st (gl, seg)).1]).getLastD EMPTY_MAPPING)) := by
      rw [List.getLastD_concat]
      simp [specStep, stMatches]
    have hline2 : ((specStep st (gl, seg)).2.curLine = some gl ∧
        i32ofU32 (specStep st (gl, seg)).1.gen_column =
          i32ofU32 (u32ofI32 (specStep st (gl, seg)).2.colSum)) ∨
        ((specStep st (gl, seg)).2.curLine ≠ some gl ∧
          i32ofU32 (specStep st (gl, seg)).1.gen_column = 0) := by
      left
      exact ⟨rfl, rfl⟩
    obtain ⟨ih1, ih2, ih3⟩ := ih (specStep st (gl, seg)).2 (acc ++ [(specStep st (gl, seg)).1])
      (i32ofU32 (specStep st (gl, seg)).1.gen_column)
      (fun s hs => hdec s (by simp [hs])) hst2 hline2
    refine ⟨?_, ?_, ?_⟩
    · rw [hstep, ih1]
      simp [specRun, List.append_assoc]
    · simpa [specRun, List.append_assoc] using ih2
    · simp only [List.map_cons, specRun]
      right
      rcases ih3 with h | h
      · exact h.trans rfl
      · exact h

theorem processChunks_spec (chunks : List String) :
    ∀ (i : Nat) (st : SpecSt) (acc : List Mapping),
      (∀ p ∈ segsFrom i chunks, ∃ d, vlq_decode p.2 = some (.ok d)) →
      stMatches st (acc.getLastD EMPTY_MAPPING) →
      (∀ l, st.curLine = some l → l < i) →
      processChunks i chunks acc =
        some (.ok (acc ++ (specRun st (segsFrom i chunks)).1)) := by
  induction chunks with
  | nil =>
    intro i st acc _ _ _
    simp [processChunks, segsFrom, specRun]
  | cons chunk rest ih =>
    intro i st acc hdec hmatch hlt
    by_cases hch : chunk = ""
    · rw [processChunks, if_pos hch]
      have := ih (i + 1) st acc
        (fun p hp => hdec p (by simp [segsFrom, hch, hp]))
        hmatch (fun l hl => Nat.lt_succ_of_lt (hlt l hl))
      rw [this]
      simp [segsFrom, hch]
    · rw [processChunks, if_neg hch]
      have hcur : st.curLine ≠ some i := by
        intro h
        exact Nat.lt_irrefl i (hlt i h)
      have hdecLine : ∀ s ∈ strSplit ',' chunk, ∃ d, vlq_decode s = some (.ok d) := by
        intro s hs
        apply hdec (i, s)
        simp only [segsFrom, if_neg hch, List.mem_append, List.mem_map]
        exact Or.inl ⟨s, hs, rfl⟩
      obtain ⟨h1, h2, h3⟩ := processLine_spec i (strSplit ',' chunk) st acc 0 hdecLine
        hmatch (Or.inr ⟨hcur, rfl⟩)
      have hnext := ih (i + 1) (specRun st ((strSplit ',' chunk).map (fun s => (i, s)))).2
        (acc ++ (specRun st ((strSplit ',' chunk).map (fun s => (i, s)))).1)
        (fun p hp => hdec p (by simp [segsFrom, hch, hp]))
        h2
        (by
          intro l hl
          rcases h3 with h | h
          · exact Nat.lt_succ_of_lt (hlt l (h ▸ hl))
          · rw [h] at hl
            cases hl
            exact Nat.lt_succ_self i)
      rw [h1]
      show processChunks (i + 1) rest
          (acc ++ (specRun st ((strSplit ',' chunk).map (fun s => (i, s)))).1) = _
      rw [hnext]
      rw [segsFrom, if_neg hch, specRun_append]
      simp [List.append_assoc]

/-- C2 (amended): for every mappings string all of whose decoded segments
succeed, `from_raw` appends exactly one mapping per comma-separated segment
of each non-empty `';'`-delimited line chunk (including empty segments
inside a non-empty chunk, which decode to `[0,0,0,0]`), in encounter order;
`gen_line` is the chunk's 0-based index, `gen_column` is the 32-bit image
of the sum of the `gen_column` deltas of the segments up to and including
it on its own line (the running base resets at every line chunk), and
`src_file`/`src_line`/`src_column` are the 32-bit images of the sums of the
corresponding deltas over all segments since the beginning of the table
(never reset at line boundaries) — exactly the mapping list produced by
`specRun`. -/
theorem from_raw_reconstruction (raw : RawSourceMapping)
    (hdec : ∀ p ∈ allSegs raw.mappings, ∃ d, vlq_decode p.2 = some (.ok d)) :
    ∃ sm, SourceMapping.from_raw raw = some (.ok sm) ∧
      sm.mappings = (specRun initialSpecSt (allSegs raw.mappings)).1 ∧
      sm.mappings.length = (allSegs raw.mappings).length ∧
      sm.sources = raw.sources ∧ sm.file = raw.file := by
  have h := processChunks_spec (strSplit ';' raw.mappings) 0 initialSpecSt [] hdec
    (by exact ⟨rfl, rfl, rfl⟩) (by intro l hl; cases hl)
  refine ⟨{ file := raw.file, source_root := raw.source_root, sources := raw.sources,
            names := raw.names,
            mappings := (specRun initialSpecSt (allSegs raw.mappings)).1,
            source_file_len := 0, source_map_len := 0,
            file_name := fileNameFrom raw.file }, ?_, rfl, ?_, rfl, rfl⟩
  · rw [SourceMapping.from_raw, h]
    simp [allSegs]
  · exact specRun_length _ _

/-- C2 witness: a two-line table `"AACA;;EACA"` (an empty middle chunk)
reconstructs to the `specRun` mapping list. -/
theorem from_raw_reconstruction_witness :
    ∃ sm, SourceMapping.from_raw
        { file := "g", source_root := none, sources := ["a", "b"], names := [],
          mappings := "AACA;;EACA" } = some (.ok sm) ∧
      sm.mappings = (specRun initialSpecSt (allSegs "AACA;;EACA")).1 ∧
      sm.mappings.length = (allSegs "AACA;;EACA").length ∧
      sm.sources = ["a", "b"] ∧ sm.file = "g" :=
  from_raw_reconstruction
    { file := "g", source_root := none, sources := ["a", "b"], names := [],
      mappings := "AACA;;EACA" }
    (by
      intro p hp
      have hsegs : allSegs "AACA;;EACA" = [(0, "AACA"), (2, "EACA")] := rfl
      rw [hsegs] at hp
      simp only [List.mem_cons, List.not_mem_nil, or_false] at hp
      rcases hp with rfl | rfl
      · exact ⟨[0, 0, 1, 0], rfl⟩
      · exact ⟨[2, 0, 1, 0], rfl⟩)

/-- Loop lemma for C6: an in-bounds table containing an underflow reaches
the first offending mapping and returns the error. -/
theorem analyzeLoop_underflow (lines : List String) (fname : String) (ms : List Mapping) :
    ∀ (idx : Nat) (prev : Mapping) (info : List SourceMappingFileInfo) (sum : Nat),
      allInBounds lines info.length ms = true →
      hasUnderflow lines ms = true →
      ∃ e g, analyzeLoop lines fname ms idx prev info sum =
          some (.error (.subtractionOverflow fname e g)) ∧ e < g := by
  induction ms with
  | nil =>
    intro idx prev info sum _ hu
    simp [hasUnderflow] at hu
  | cons m rest ih =>
    intro idx prev info sum hb hu
    simp only [allInBounds, List.all_cons, Bool.and_eq_true, decide_eq_true_eq] at hb
    obtain ⟨⟨hsf, hgl⟩, hbrest⟩ := hb
    by_cases hcase : endColOf lines m rest.head? < m.gen_column
    · refine ⟨endColOf lines m rest.head?, m.gen_column, ?_, hcase⟩
      rw [analyzeLoop, dif_pos hsf, if_pos hgl, if_pos hcase]
    · have hurest : hasUnderflow lines rest = true := by
        simp only [hasUnderflow, Bool.or_eq_true, decide_eq_true_eq] at hu
        rcases hu with h | h
        · exact absurd h hcase
        · exact h
      obtain ⟨e, g, hr, heg⟩ := ih (idx + 1) m
        (info.set m.src_file
          { bytes := (info.get ⟨m.src_file, hsf⟩).bytes +
              ((if idx = 0 ∨ m.gen_line ≠ prev.gen_line then m.gen_column else 0) +
                (endColOf lines m rest.head? - m.gen_column)),
            file := (info.get ⟨m.src_file, hsf⟩).file })
        (sum + ((if idx = 0 ∨ m.gen_line ≠ prev.gen_line then m.gen_column else 0) +
          (endColOf lines m rest.head? - m.gen_column)))
        (by
          rw [List.length_set]
          simpa only [allInBounds] using hbrest)
        hurest
      refine ⟨e, g, ?_, heg⟩
      rw [analyzeLoop, dif_pos hsf, if_pos hgl, if_neg hcase]
      exact hr

/-- C6: whenever every mapping is in bounds (so the walk reaches the
offending mapping rather than panicking) and some mapping's computed end
column strictly precedes its `gen_column`, `calculate_size_by_file` returns
the descriptive subtraction-underflow error — an `Err`, no partial
`SourceMappingInfo` and no clamping. -/
theorem calculate_size_by_file_underflow_error (contents : String) (sm : SourceMapping)
    (hb : allInBounds (rustLines contents) sm.sources.length sm.mappings = true)
    (hu : hasUnderflow (rustLines contents) sm.mappings = true) :
    ∃ e g, calculate_size_by_file contents sm =
        some (.error (.subtractionOverflow sm.file e g)) ∧ e < g := by
  have hlen0 : ((List.range sm.sources.length).map
      (fun file => { bytes := 0, file := file : SourceMappingFileInfo })).length
      = sm.sources.length := by simp
  obtain ⟨e, g, hr, heg⟩ := analyzeLoop_underflow (rustLines contents) sm.file sm.mappings 0
    EMPTY_MAPPING
    ((List.range sm.sources.length).map
      (fun file => { bytes := 0, file := file : SourceMappingFileInfo })) 0
    (by rw [hlen0]; exact hb) hu
  refine ⟨e, g, ?_, heg⟩
  simp only [calculate_size_by_file]
  rw [hr]

/-- C6 witness: a one-line file `"ab"` (length 2) with a mapping starting
at column 5. -/
theorem calculate_size_by_file_underflow_error_witness :
    ∃ e g, calculate_size_by_file "ab"
        { file := "w", source_root := none, sources := ["s0"], names := [],
          mappings := [{ gen_line := 0, gen_column := 5, src_file := 0,
                         src_line := 0, src_column := 0 }],
          source_file_len := 0, source_map_len := 0, file_name := "w" } =
        some (.error (.subtractionOverflow "w" e g)) ∧ e < g :=
  calculate_size_by_file_underflow_error "ab"
    { file := "w", source_root := none, sources := ["s0"], names := [],
      mappings := [{ gen_line := 0, gen_column := 5, src_file := 0,
                     src_line := 0, src_column := 0 }],
      source_file_len := 0, source_map_len := 0, file_name := "w" }
    (by decide) (by decide)

/-- C9 counterexample: `smNine` contains a mapping whose `gen_line` (3) is
not less than the number of lines of `"ab"` (1), yet
`calculate_size_by_file` does not panic: the earlier mapping's subtraction
underflow makes it return an `Err` first. -/
theorem analyzer_out_of_range_without_panic :
    (∃ m ∈ smNine.mappings, (rustLines "ab").length ≤ m.gen_line) ∧
    calculate_size_by_file "ab" smNine =
      some (.error (.subtractionOverflow "f" 2 5)) :=
  ⟨⟨{ gen_line := 3, gen_column := 0, src_file := 0, src_line := 0, src_column := 0 },
    by decide, by decide⟩, rfl⟩

/-- Loop lemma for C9 (amended): with all `src_file`s in range, a mapping
whose `gen_line` is out of range, and no underflow among the mappings
before the first out-of-range one, the loop panics (`none`). -/
theorem analyzeLoop_panics (lines : List String) (fname : String) (ms : List Mapping) :
    ∀ (idx : Nat) (prev : Mapping) (info : List SourceMappingFileInfo) (sum : Nat),
      (∀ m ∈ ms, m.src_file < info.length) →
      (∃ m ∈ ms, lines.length ≤ m.gen_line) →
      hasUnderflow lines
        (ms.takeWhile (fun m => decide (m.gen_line < lines.length))) = false →
      analyzeLoop lines fname ms idx prev info sum = none := by
  induction ms with
  | nil =>
    intro idx prev info sum _ hex _
    simp at hex
  | cons m rest ih =>
    intro idx prev info sum hsf hex hu
    have hsfm : m.src_file < info.length := hsf m (by simp)
    by_cases hgl : m.gen_line < lines.length
    · have hexr : ∃ m2 ∈ rest, lines.length ≤ m2.gen_line := by
        rcases hex with ⟨m2, hm2, hge⟩
        rcases List.mem_cons.mp hm2 with rfl | hm2r
        · omega
        · exact ⟨m2, hm2r, hge⟩
      rw [List.takeWhile_cons, if_pos (by simpa using hgl)] at hu
      simp only [hasUnderflow, Bool.or_eq_false_iff, decide_eq_false_iff_not, Nat.not_lt] at hu
      obtain ⟨hge0, hurest⟩ := hu
      have hend : endColOf lines m rest.head? =
          endColOf lines m
            ((rest.takeWhile (fun x => decide (x.gen_line < lines.length))).head?) := by
        cases rest with
        | nil => rfl
        | cons r rs =>
          rw [List.takeWhile_cons]
          by_cases hr : r.gen_line < lines.length
          · rw [if_pos (by simpa using hr)]
            rfl
          · rw [if_neg (by simpa using hr)]
            have hne : r.gen_line ≠ m.gen_line := by omega
            simp [endColOf, hne]
      rw [analyzeLoop, dif_pos hsfm, if_pos hgl,
        if_neg (by rw [hend]; exact Nat.not_lt.mpr hge0)]
      exact ih (idx + 1) m _ _
        (by
          intro m2 hm2
          rw [List.length_set]
          exact hsf m2 (by simp [hm2]))
        hexr hurest
    · rw [analyzeLoop, dif_pos hsfm, if_neg hgl]

/-- C9 (amended): `calculate_size_by_file` panics on the out-of-bounds
line index — instead of returning an `Err` — whenever some mapping's
`gen_line` is not less than the number of lines of the generated text,
provided every mapping's `src_file` is in range and no mapping before the
first out-of-range one triggers the subtraction-underflow error (without
the proviso the claim fails, see the counterexample: an earlier underflow
returns an `Err` and no panic happens). -/
theorem calculate_size_by_file_panics (contents : String) (sm : SourceMapping)
    (hsf : ∀ m ∈ sm.mappings, m.src_file < sm.sources.length)
    (hex : ∃ m ∈ sm.mappings, (rustLines contents).length ≤ m.gen_line)
    (hu : hasUnderflow (rustLines contents)
        (sm.mappings.takeWhile
          (fun m => decide (m.gen_line < (rustLines contents).length))) = false) :
    calculate_size_by_file contents sm = none := by
  have h := analyzeLoop_panics (rustLines contents) sm.file sm.mappings 0 EMPTY_MAPPING
    ((List.range sm.sources.length).map
      (fun file => { bytes := 0, file := file : SourceMappingFileInfo })) 0
    (by
      intro m hm
      simpa using hsf m hm)
    hex hu
  simp only [calculate_size_by_file]
  rw [h]

/-- C9 (amended) witness: a single mapping on line 5 of a one-line file. -/
theorem calculate_size_by_file_panics_witness :
    calculate_size_by_file "ab"
      { file := "w", source_root := none, sources := ["s"], names := [],
        mappings := [{ gen_line := 5, gen_column := 0, src_file := 0,
                       src_line := 0, src_column := 0 }],
        source_file_len := 0, source_map_len := 0, file_name := "w" } = none :=
  calculate_size_by_file_panics "ab"
    { file := "w", source_root := none, sources := ["s"], names := [],
      mappings := [{ gen_line := 5, gen_column := 0, src_file := 0,
                     src_line := 0, src_column := 0 }],
      source_file_len := 0, source_map_len := 0, file_name := "w" }
    (by decide)
    ⟨{ gen_line := 5, gen_column := 0, src_file := 0, src_line := 0, src_column := 0 },
      by decide, by decide⟩
    (by decide)

theorem discover_dir_flatten (path : String) (entries : List String)
    (hext : ∀ n ∈ entries, (rustExtension (path ++ "/" ++ n)).isSome) :
    ∃ picked, entries.mapM (fun name =>
        (rustExtension (path ++ "/" ++ name)).map
          (fun ext => if ext = "js" then [path ++ "/" ++ name] else [])) = some picked ∧
      picked.flatten = jsFiles path entries := by
  induction entries with
  | nil => exact ⟨[], rfl, rfl⟩
  | cons n ns ih =>
    obtain ⟨ext, hextn⟩ := Option.isSome_iff_exists.mp (hext n (by simp))
    obtain ⟨picked, hp, hflat⟩ := ih (fun x hx => hext x (by simp [hx]))
    refine ⟨(if ext = "js" then [path ++ "/" ++ n] else []) :: picked, ?_, ?_⟩
    · rw [List.mapM_cons, hextn, hp]
      rfl
    · by_cases hjs : ext = "js"
      · simp [hjs, jsFiles, List.filter_cons, hextn, hflat, jsFiles]
      · simp only [List.flatten_cons, if_neg hjs, List.nil_append, hflat, jsFiles,
          List.map_cons, List.filter_cons, hextn]
        rw [if_neg (by simp [hextn, hjs])]

/-- C7: with the path's metadata unreadable, `discover_files` propagates
the underlying I/O error; for a plain file it returns the single-element
list `[path]`; for a directory all of whose immediate entries have an
extension, it returns exactly the entries whose extension is `"js"`
(excluding in particular `.map` files), sorted lexicographically, without
recursing. -/
theorem discover_files_spec (path e : String) (entries : List String)
    (hext : ∀ n ∈ entries, (rustExtension (path ++ "/" ++ n)).isSome) :
    discover_files path (.error e) = some (.error e) ∧
    discover_files path (.ok .file) = some (.ok [path]) ∧
    ∃ l, discover_files path (.ok (.dir entries)) = some (.ok l) ∧
      l.Perm (jsFiles path entries) ∧ List.Sorted (· ≤ ·) l := by
  refine ⟨rfl, rfl, ?_⟩
  obtain ⟨picked, hp, hflat⟩ := discover_dir_flatten path entries hext
  refine ⟨(picked.flatten).mergeSort (fun a b => a ≤ b), ?_, ?_, ?_⟩
  · simp only [discover_files, hp]
  · rw [hflat] at *
    exact List.mergeSort_perm _ _
  · exact List.sorted_mergeSort' _

/-- C7 witness: the spec's directory example `z.js, a.js, m.js.map, b.js`. -/
theorem discover_files_spec_witness :
    discover_files "d" (.error "io") = some (.error "io") ∧
    discover_files "d" (.ok .file) = some (.ok ["d"]) ∧
    ∃ l, discover_files "d" (.ok (.dir ["z.js", "a.js", "m.js.map", "b.js"])) =
        some (.ok l) ∧
      l.Perm (jsFiles "d" ["z.js", "a.js", "m.js.map", "b.js"]) ∧
      List.Sorted (· ≤ ·) l :=
  discover_files_spec "d" "io" ["z.js", "a.js", "m.js.map", "b.js"] (by decide)

theorem foldl_push_eq_map {α β : Type} (g : α → β) (l : List α) :
    ∀ (acc : List β), l.foldl (fun acc f => acc ++ [g f]) acc = acc ++ l.map g := by
  induction l with
  | nil => intro acc; simp
  | cons x xs ih => intro acc; simp [ih]

/-- C8: when discovery succeeds, `analyze_path` invokes the callback
exactly once per discovered file, in the discovered order, with that file's
`handle_file` result — per-file errors never suppress the remaining
invocations (the trace is the full `map`, whatever the oracle returns) —
and returns `Ok`; when discovery fails, it returns that error without any
callback invocation. -/
theorem analyze_path_callback_trace
    (handle_file : String → Except String SourceMappingInfo)
    (files : List String) (e : String) :
    analyze_path (.ok files) handle_file =
      (files.map (fun f => (f, handle_file f)), .ok ()) ∧
    analyze_path (.error e) handle_file = ([], .error e) := by
  constructor
  · simp only [analyze_path]
    rw [foldl_push_eq_map (fun f => (f, handle_file f)) files []]
    rfl
  · rfl

theorem resolveLoop_out_of_slashes (cs : List Char) (target : Nat) (l : List Char) :
    ∀ (index skipped : Nat),
      l.count '/' + skipped < target →
      resolveLoop cs target l index skipped = none := by
  induction l with
  | nil => intro index skipped _; rfl
  | cons c rest ih =>
    intro index skipped hcount
    rw [resolveLoop]
    have hcc : (c :: rest).count '/' = rest.count '/' + (if c = '/' then 1 else 0) := by
      by_cases hc : c = '/' <;> simp [List.count_cons, hc]
    rw [hcc] at hcount
    have hne : ¬ ((if c = '/' then skipped + 1 else skipped) = target) := by
      by_cases hc : c = '/'
      · simp only [if_pos hc] at hcount ⊢
        omega
      · simp only [if_neg hc] at hcount ⊢
        omega
    rw [if_neg hne]
    apply ih
    by_cases hc : c = '/'
    · simp only [if_pos hc] at hcount ⊢
      omega
    · simp only [if_neg hc] at hcount ⊢
      omega

theorem leading_le_findIdx (fuel : Nat) : ∀ (cs : List Char), cs.length ≤ fuel →
    ∀ (pos : Nat), cs.findIdx? notDotSlash = some pos →
      leadingParentRefs cs ≤ pos / 3 := by
  induction fuel with
  | zero =>
    intro cs hlen pos _
    have : cs = [] := List.eq_nil_of_length_eq_zero (Nat.le_zero.mp hlen)
    subst this
    exact Nat.zero_le _
  | succ n ih =>
    intro cs hlen pos hpos
    rw [leadingParentRefs.eq_def]
    split
    · rename_i c1 c2 c3 rest
      by_cases hc : c1 = '.' ∧ c2 = '.' ∧ c3 = '/'
      · rw [if_pos hc]
        obtain ⟨rfl, rfl, rfl⟩ := hc
        simp [List.findIdx?_cons, show notDotSlash '.' = false from rfl,
          show notDotSlash '/' = false from rfl] at hpos
        obtain ⟨p3, hp3, hadd⟩ := hpos
        have hrest : rest.length ≤ n := by
          simp only [List.length_cons] at hlen
          omega
        have hrec := ih rest hrest p3 hp3
        omega
      · rw [if_neg hc]
        exact Nat.zero_le _
    · exact Nat.zero_le _

theorem findIdx?_ge_of_leadingParentRefs (cs : List Char) (pos : Nat)
    (h : cs.findIdx? notDotSlash = some pos) :
    leadingParentRefs cs ≤ pos / 3 :=
  leading_le_findIdx cs.length cs (Nat.le_refl _) pos h

/-- C10: with `source_root` absent or empty, `sources_root` panics on an
empty `sources` list (the `unwrap` on `sources.first()`); it also panics
when `sources[0]` consists solely of `'.'` and `'/'` characters, and when
the mapping's `file` contains fewer `'/'` separators than the number of
leading `"../"` components of `sources[0]` plus one; consequently it is
panic-free only when `sources` is non-empty. -/
theorem sources_root_panics (sm : SourceMapping)
    (hroot : sm.source_root = none ∨ sm.source_root = some "") :
    (sm.sources = [] → sources_root sm = none) ∧
    (∀ s0 rest, sm.sources = s0 :: rest →
      (∀ c ∈ s0.data, c = '.' ∨ c = '/') → sources_root sm = none) ∧
    (∀ s0 rest, sm.sources = s0 :: rest →
      sm.file.data.count '/' < leadingParentRefs s0.data + 1 → sources_root sm = none) ∧
    (sources_root sm ≠ none → sm.sources ≠ []) := by
  have he : "".isEmpty = true := rfl
  refine ⟨?_, ?_, ?_, ?_⟩
  · intro hs
    rcases hroot with h | h <;> rw [sources_root, h] <;> simp [hs, he]
  · intro s0 rest hs hchars
    have hfind : s0.data.findIdx? notDotSlash = none := by
      rw [List.findIdx?_eq_none_iff]
      intro c hc
      rcases hchars c hc with h | h <;> simp [notDotSlash, h]
    have hres : resolve_relative_path s0 sm.file = none := by
      rw [resolve_relative_path, hfind]
    rcases hroot with h | h <;> rw [sources_root, h] <;> simp [hs, hres, he]
  · intro s0 rest hs hcount
    have hres : resolve_relative_path s0 sm.file = none := by
      rw [resolve_relative_path]
      cases hfind : s0.data.findIdx? notDotSlash with
      | none => rfl
      | some pos =>
        have hle := findIdx?_ge_of_leadingParentRefs s0.data pos hfind
        apply resolveLoop_out_of_slashes
        rw [List.count_reverse]
        omega
    rcases hroot with h | h <;> rw [sources_root, h] <;> simp [hs, hres, he]
  · intro hne hs
    apply hne
    rcases hroot with h | h <;> rw [sources_root, h] <;> simp [hs, he]

/-- C10 witness: no `sourceRoot`, a single source `"../x"` (one leading
`"../"` component), and a file path `"y"` without any `'/'` — the third
conjunct applies and `sources_root` panics. -/
theorem sources_root_panics_witness :
    (smTen.sources = [] → sources_root smTen = none) ∧
    (∀ s0 rest, smTen.sources = s0 :: rest →
      (∀ c ∈ s0.data, c = '.' ∨ c = '/') → sources_root smTen = none) ∧
    (∀ s0 rest, smTen.sources = s0 :: rest →
      smTen.file.data.count '/' < leadingParentRefs s0.data + 1 →
      sources_root smTen = none) ∧
    (sources_root smTen ≠ none → smTen.sources ≠ []) :=
  sources_root_panics smTen (Or.inl rfl)

end SvisTool
